import Mathlib

/-!
Verification of the `update-cursor` installer script.

This file is a shallow embedding of `src/lib/main.py`.  Pure fragments
(version parsing and comparison, manifest resolution, desktop-file text
rewriting) are translated directly into Lean functions; filesystem and
process state are made explicit parameters.  Strings are modelled as
`List Char`; Python `int` values as `Int`; a Python function that can
raise is modelled with `Option`/explicit error constructors.
-/

namespace UpdateCursor

/-- Python `s.split('.')` on a string modelled as a list of characters
(as used in `compare_versions` and in the manifest loop of
`download_cursor_appimage`).  Mirrors CPython semantics:
`"".split('.') = [""]`, `"1..2".split('.') = ["1","","2"]`. -/
def splitOnDot : List Char → List (List Char)
  | [] => [[]]
  | c :: rest =>
    if c = '.' then [] :: splitOnDot rest
    else
      match splitOnDot rest with
      | t :: ts => (c :: t) :: ts
      | [] => [[c]]

/-- Decimal digit value of a character, `none` for a non-digit. -/
def digitVal? (c : Char) : Option Nat :=
  if '0' ≤ c ∧ c ≤ '9' then some (c.toNat - '0'.toNat) else none

/-- Accumulating decimal parser over the remaining characters. -/
def parseDigitsAux (acc : Nat) : List Char → Option Nat
  | [] => some acc
  | c :: rest =>
    match digitVal? c with
    | some d => parseDigitsAux (acc * 10 + d) rest
    | none => none

/-- Nonempty all-digit string to `Nat`; `none` otherwise. -/
def parseDigits : List Char → Option Nat
  | [] => none
  | c :: rest => parseDigitsAux 0 (c :: rest)

/-- Python `int(x)` on a decimal literal: optional sign followed by at
least one digit.  `none` models `ValueError`.  (CPython's tolerance for
surrounding whitespace and underscores is not modelled.) -/
def parseIntPy : List Char → Option Int
  | '+' :: rest => (parseDigits rest).map Int.ofNat
  | '-' :: rest => (parseDigits rest).map (fun n => -(n : Int))
  | l => (parseDigits l).map Int.ofNat

/-- Parse every component of a dotted version; `none` if any component
fails (a `ValueError` escaping the list comprehension
`[int(x) for x in version.split('.')]`). -/
def parseVersionParts : List (List Char) → Option (List Int)
  | [] => some []
  | p :: ps =>
    match parseIntPy p, parseVersionParts ps with
    | some v, some vs => some (v :: vs)
    | _, _ => none

/-- The version-string parser `[int(x) for x in s.split('.')]`. -/
def parseVersion (s : List Char) : Option (List Int) :=
  parseVersionParts (splitOnDot s)

/-- Python list comparison `a > b` on lists of ints: lexicographic,
first differing element decides, a proper prefix is smaller. -/
def pyListGT : List Int → List Int → Bool
  | [], _ => false
  | _ :: _, [] => true
  | a :: as, b :: bs =>
    if b < a then true else if a < b then false else pyListGT as bs

/-- Right-pad a component list with zeros up to length `n`
(`parts.extend([0] * (max_len - len(parts)))`). -/
def padTo (n : Nat) (l : List Int) : List Int :=
  l ++ List.replicate (n - l.length) 0

/-- The `compare_versions(current_version, latest_version)` function of
`lib/main.py`: `True` if no current version (`None` or the empty string,
both falsy), `True` when parsing either side raises, otherwise the
zero-padded Python list comparison `latest_parts > current_parts`. -/
def compare_versions (current : Option (List Char)) (latest : List Char) : Bool :=
  match current with
  | none => true
  | some cur =>
    if cur.isEmpty then true
    else
      match parseVersion cur, parseVersion latest with
      | some cp, some lp =>
        let m := max cp.length lp.length
        pyListGT (padTo m lp) (padTo m cp)
      | _, _ => true

/-! ### Order lemmas for `pyListGT` -/

theorem pyListGT_cons_iff (a b : Int) (as bs : List Int) :
    pyListGT (a :: as) (b :: bs) = true ↔ b < a ∨ (a = b ∧ pyListGT as bs = true) := by
  have hdef : pyListGT (a :: as) (b :: bs) =
      if b < a then true else if a < b then false else pyListGT as bs := rfl
  rw [hdef]
  by_cases hba : b < a
  · simp [hba]
  · by_cases hab : a < b
    · have h1 : ¬(b < a ∨ (a = b ∧ pyListGT as bs = true)) := by
        rintro (h | ⟨h, -⟩) <;> omega
      simp [hba, hab, h1]
      intro h
      exact absurd (h ▸ hab) (lt_irrefl b)
    · have hab' : a = b := by omega
      subst hab'
      simp [lt_irrefl]

theorem pyListGT_irrefl : ∀ l : List Int, pyListGT l l = false
  | [] => rfl
  | a :: as => by
    have ih := pyListGT_irrefl as
    cases hx : pyListGT (a :: as) (a :: as) with
    | false => rfl
    | true =>
      exfalso
      rcases (pyListGT_cons_iff a a as as).mp hx with h | ⟨-, h⟩
      · exact lt_irrefl a h
      · rw [ih] at h
        exact Bool.false_ne_true h

theorem pyListGT_trans {x y z : List Int} (hxy : pyListGT x y = true)
    (hyz : pyListGT y z = true) : pyListGT x z = true := by
  induction x generalizing y z with
  | nil => simp [pyListGT] at hxy
  | cons a as ih =>
    cases y with
    | nil => simp [pyListGT] at hyz
    | cons b bs =>
      cases z with
      | nil => rfl
      | cons c cs =>
        rw [pyListGT_cons_iff] at hxy hyz ⊢
        rcases hxy with hba | ⟨hab, hxy'⟩
        · rcases hyz with hcb | ⟨hbc, _⟩
          · exact Or.inl (hcb.trans hba)
          · exact Or.inl (hbc ▸ hba)
        · rcases hyz with hcb | ⟨hbc, hyz'⟩
          · exact Or.inl (hab ▸ hcb)
          · exact Or.inr ⟨hab.trans hbc, ih hxy' hyz'⟩

theorem pyListGT_asymm {x y : List Int} (h : pyListGT x y = true) :
    pyListGT y x = false := by
  by_contra hyx
  have hyx' : pyListGT y x = true := by
    cases h' : pyListGT y x with
    | false => exact absurd h' hyx
    | true => rfl
  have := pyListGT_trans h hyx'
  rw [pyListGT_irrefl] at this
  exact Bool.false_ne_true this

/-- First-difference characterisation of the Python list order on lists
of equal length, with out-of-range positions read as `0`. -/
theorem pyListGT_eq_true_iff (u v : List Int) (h : u.length = v.length) :
    pyListGT u v = true ↔
      ∃ i, (∀ j < i, u.getD j 0 = v.getD j 0) ∧ v.getD i 0 < u.getD i 0 := by
  induction u generalizing v with
  | nil =>
    cases v with
    | nil =>
      simp only [pyListGT]
      constructor
      · intro hf
        exact absurd hf (by simp)
      · rintro ⟨i, -, hi⟩
        simp [List.getD] at hi
    | cons b bs => simp at h
  | cons a as ih =>
    cases v with
    | nil => simp at h
    | cons b bs =>
      have hlen : as.length = bs.length := by simpa using h
      rw [pyListGT_cons_iff]
      constructor
      · rintro (hba | ⟨hab, htail⟩)
        · exact ⟨0, by omega, by simpa using hba⟩
        · obtain ⟨i, hj, hi⟩ := (ih bs hlen).mp htail
          refine ⟨i + 1, ?_, by simpa using hi⟩
          intro j hjlt
          cases j with
          | zero => simpa using hab
          | succ j' =>
            have := hj j' (by omega)
            simpa using this
      · rintro ⟨i, hj, hi⟩
        cases i with
        | zero =>
          exact Or.inl (by simpa using hi)
        | succ i' =>
          have hab : a = b := by simpa using hj 0 (by omega)
          refine Or.inr ⟨hab, (ih bs hlen).mpr ?_⟩
          refine ⟨i', ?_, by simpa using hi⟩
          intro j hjlt
          have := hj (j + 1) (by omega)
          simpa using this

theorem getD_replicate_zero (k i : Nat) :
    (List.replicate k (0 : Int)).getD i 0 = 0 := by
  induction k generalizing i with
  | zero => simp [List.getD]
  | succ k' ih =>
    cases i with
    | zero => simp [List.replicate]
    | succ i' =>
      rw [List.replicate, List.getD_cons_succ]
      exact ih i'

theorem getD_padTo (m : Nat) (l : List Int) (j : Nat) :
    (padTo m l).getD j 0 = l.getD j 0 := by
  unfold padTo
  by_cases hj : j < l.length
  · exact List.getD_append _ _ _ _ hj
  · rw [List.getD_append_right _ _ _ _ (by omega), getD_replicate_zero,
        List.getD_eq_default _ _ (by omega)]

theorem length_padTo {m : Nat} {l : List Int} (h : l.length ≤ m) :
    (padTo m l).length = m := by
  simp [padTo]
  omega

/-- C8: `compare_versions` returns `true` when the stored version is
absent; returns `true` whenever parsing of either side fails (fail-open);
and when both sides parse it returns `true` exactly when the candidate's
component sequence, read with zero right-padding, exceeds the current one
at the first position where they differ. -/
theorem c8_compare_versions_spec (cur latest : List Char) :
    (compare_versions none latest = true) ∧
    ((parseVersion cur = none ∨ parseVersion latest = none) →
      compare_versions (some cur) latest = true) ∧
    (∀ cp lp, parseVersion cur = some cp → parseVersion latest = some lp →
      (compare_versions (some cur) latest = true ↔
        ∃ i, (∀ j < i, lp.getD j 0 = cp.getD j 0) ∧ cp.getD i 0 < lp.getD i 0)) := by
  refine ⟨rfl, ?_, ?_⟩
  · intro hfail
    cases cur with
    | nil => rfl
    | cons c cs =>
      have hred : compare_versions (some (c :: cs)) latest =
          (match parseVersion (c :: cs), parseVersion latest with
           | some cp, some lp =>
             pyListGT (padTo (max cp.length lp.length) lp)
               (padTo (max cp.length lp.length) cp)
           | _, _ => true) := rfl
      rw [hred]
      rcases hfail with hc | hl
      · rw [hc]
      · rw [hl]
        cases parseVersion (c :: cs) <;> rfl
  · intro cp lp hcp hlp
    cases cur with
    | nil =>
      rw [show parseVersion [] = none from rfl] at hcp
      exact Option.noConfusion hcp
    | cons c cs =>
      have hred : compare_versions (some (c :: cs)) latest =
          pyListGT (padTo (max cp.length lp.length) lp)
            (padTo (max cp.length lp.length) cp) := by
        show (match parseVersion (c :: cs), parseVersion latest with
              | some cp, some lp =>
                pyListGT (padTo (max cp.length lp.length) lp)
                  (padTo (max cp.length lp.length) cp)
              | _, _ => true) = _
        simp only [hcp, hlp]
      rw [hred]
      rw [pyListGT_eq_true_iff _ _
        (by rw [length_padTo (le_max_right _ _), length_padTo (le_max_left _ _)])]
      simp only [getD_padTo]

/-- Witness for C8 at a concrete input: stored `1.4.0`, candidate
`1.5.0` differ first at component index 1 with `4 < 5`. -/
theorem c8_compare_versions_spec_witness :
    compare_versions (some "1.4.0".data) "1.5.0".data = true := by
  refine ((c8_compare_versions_spec "1.4.0".data "1.5.0".data).2.2
    [1, 4, 0] [1, 5, 0] rfl rfl).mpr ⟨1, ?_, by decide⟩
  intro j hj
  have hz : j = 0 := by omega
  subst hz
  rfl

/-! ### Installation-conflict detection (`check_installation_conflicts`) -/

/-- The `check_installation_conflicts` function of `lib/main.py`.  The
filesystem probes `Path('/usr/local/bin/cursor').exists()` and
`(home / '.local/bin/cursor').exists()` and the privilege probe
`os.geteuid() == 0` are passed in as booleans; the result is the
`conflicts` list of messages built by the three checks, in source
order. -/
def check_installation_conflicts (elevated systemExists userExists : Bool) :
    List String :=
  let conflicts : List String := []
  let conflicts := if systemExists && userExists then
      conflicts ++ ["Both system-wide and user-specific installations found"]
    else conflicts
  let conflicts := if elevated && userExists then
      conflicts ++ ["Running with sudo but user-specific installation exists"]
    else conflicts
  let conflicts := if !elevated && systemExists then
      conflicts ++ ["Running without sudo but system-wide installation exists"]
    else conflicts
  conflicts

/-- The boolean the function returns: whether any conflict was found. -/
def check_installation_conflicts_found (elevated systemExists userExists : Bool) :
    Bool :=
  !(check_installation_conflicts elevated systemExists userExists).isEmpty

/-- C1 counterexample: with both installs present on an elevated run the
code reports two conflicts (the coexistence message and the
sudo-with-user-install message), not exactly one as claimed. -/
theorem c1_check_installation_conflicts_counterexample :
    (check_installation_conflicts true true true).length = 2 ∧
    (check_installation_conflicts true true true).length ≠ 1 := by
  constructor <;> decide

/-- C1 amended: when both install paths exist the conflict list always
has exactly two entries (the coexistence conflict plus whichever
privilege-mismatch conflict applies); when exactly one exists, the list
has one entry exactly when the run's elevation mismatches that install
(elevated with a user install, or non-elevated with a system install)
and is empty otherwise; when neither exists it is empty. -/
theorem c1_check_installation_conflicts_amended (e s u : Bool) :
    ((s = true ∧ u = true) →
      (check_installation_conflicts e s u).length = 2) ∧
    ((s = true ∧ u = false) →
      (check_installation_conflicts e s u).length = if e then 0 else 1) ∧
    ((s = false ∧ u = true) →
      (check_installation_conflicts e s u).length = if e then 1 else 0) ∧
    ((s = false ∧ u = false) →
      (check_installation_conflicts e s u).length = 0) := by
  cases e <;> cases s <;> cases u <;> refine ⟨?_, ?_, ?_, ?_⟩ <;> decide

/-- Witness for the amended C1 statement: both installs present on an
elevated run yields two conflicts. -/
theorem c1_check_installation_conflicts_amended_witness :
    (check_installation_conflicts true true true).length = 2 :=
  (c1_check_installation_conflicts_amended true true true).1 ⟨rfl, rfl⟩

/-! ### Version store (`get_current_version`) -/

/-- Abstract state of one candidate version file: whether `Path.exists()`
holds, and the text `read_text()` yields (`none` models an existing but
unreadable file, i.e. `read_text` raising). -/
structure FileEntry where
  present : Bool
  readContent : Option (List Char)
deriving DecidableEq

/-- Characters Python `str.strip()` removes by default. -/
def isPySpace (c : Char) : Bool :=
  c = ' ' || c = '\t' || c = '\n' || c = '\r' || c = '\x0B' || c = '\x0C'

/-- Python `s.strip()`. -/
def pyStrip (l : List Char) : List Char :=
  ((l.dropWhile isPySpace).reverse.dropWhile isPySpace).reverse

/-- The `for vf in version_files: if vf.exists(): version_file = vf; break`
loop of `get_current_version`: the first existing candidate. -/
def firstExisting : List FileEntry → Option FileEntry
  | [] => none
  | f :: fs => if f.present then some f else firstExisting fs

/-- The `get_current_version` function of `lib/main.py`, over the ordered
candidate list (primary fixed location, per-user backup, cwd fallback):
picks the first existing candidate; returns its stripped content, or
`None` when no candidate exists or when reading the chosen file raises. -/
def get_current_version (files : List FileEntry) : Option (List Char) :=
  match firstExisting files with
  | none => none
  | some f =>
    match f.readContent with
    | some s => some (pyStrip s)
    | none => none

/-- C4 counterexample: first candidate exists but is unreadable, second
exists and is readable with content `1.2.3`; the code returns `None`
instead of continuing the search and returning `1.2.3`. -/
theorem c4_get_current_version_counterexample :
    get_current_version
      [⟨true, none⟩, ⟨true, some "1.2.3".data⟩] ≠ some "1.2.3".data := by
  decide

/-- C4 amended: the search stops at the first existing candidate; if that
file is unreadable the failure is non-fatal but the result is `None` —
the search does not continue, whatever readable candidates follow. -/
theorem c4_get_current_version_amended (pre : List FileEntry) (f : FileEntry)
    (post : List FileEntry) (hpre : ∀ g ∈ pre, g.present = false)
    (hf : f.present = true) (hur : f.readContent = none) :
    get_current_version (pre ++ f :: post) = none := by
  have hfe : firstExisting (pre ++ f :: post) = some f := by
    induction pre with
    | nil => simp [firstExisting, hf]
    | cons g gs ih =>
      have hg := hpre g (List.mem_cons_self _ _)
      simp only [List.cons_append, firstExisting, hg, Bool.false_eq_true, if_false]
      exact ih fun x hx => hpre x (List.mem_cons_of_mem _ hx)
  simp [get_current_version, hfe, hur]

/-- Witness for the amended C4 statement: an unreadable existing first
candidate yields `None` even though a readable candidate follows. -/
theorem c4_get_current_version_amended_witness :
    get_current_version [⟨true, none⟩, ⟨true, some "1.2.3".data⟩] = none :=
  c4_get_current_version_amended [] ⟨true, none⟩ [⟨true, some "1.2.3".data⟩]
    (by intro g hg; cases hg) rfl rfl

/-! ### Manifest resolution (the latest-version loop of
`download_cursor_appimage`) -/

/-- One entry of the `versions` list of `version-history.json`. -/
structure VEntry where
  version : Option (List Char)
  platforms : List (List Char × List Char)
deriving DecidableEq

/-- Outcome of the latest-version loop: `parseError` models the
`ValueError` from `[int(x) for x in version.split('.')]` escaping to the
generic `except Exception` handler (which calls `sys.exit(1)`);
`noValid` models `latest_version_info` remaining `None`. -/
inductive SelectResult where
  | parseError : SelectResult
  | noValid : SelectResult
  | found : List Int → VEntry → SelectResult
deriving DecidableEq

/-- The latest-version loop of `download_cursor_appimage` (lines
150–172 of `lib/main.py`): iterate the entries in order, skip entries
whose `version` field is missing or empty (falsy `if version:`), parse
each remaining version string (a failure aborts the whole resolution),
and keep the entry whose parsed component list is strictly greater under
Python list comparison (first maximal entry wins). -/
def selectLatest : List VEntry → Option (List Int × VEntry) → SelectResult
  | [], acc =>
    match acc with
    | none => .noValid
    | some (b, e) => .found b e
  | e :: es, acc =>
    match e.version with
    | none => selectLatest es acc
    | some v =>
      if v.isEmpty then selectLatest es acc
      else
        match parseVersion v with
        | none => .parseError
        | some parts =>
          match acc with
          | none => selectLatest es (some (parts, e))
          | some (b, be) =>
            if pyListGT parts b then selectLatest es (some (parts, e))
            else selectLatest es (some (b, be))

/-- The version string an entry contributes to the loop: `none` when the
`version` field is missing or empty (both falsy, hence skipped). -/
def entryVersion? (e : VEntry) : Option (List Char) :=
  match e.version with
  | none => none
  | some v => if v.isEmpty then none else some v

theorem selectLatest_parseError (entries : List VEntry) :
    ∀ (acc : Option (List Int × VEntry)),
    (∃ e ∈ entries, ∃ v, entryVersion? e = some v ∧ parseVersion v = none) →
    selectLatest entries acc = .parseError := by
  induction entries with
  | nil =>
    rintro acc ⟨e, he, -⟩
    cases he
  | cons e es ih =>
    rintro acc ⟨e0, he0, v0, hv0, hp0⟩
    cases hev : e.version with
    | none =>
      have he0' : e0 ∈ es := by
        rcases List.mem_cons.mp he0 with rfl | h'
        · simp [entryVersion?, hev] at hv0
        · exact h'
      simp only [selectLatest, hev]
      exact ih acc ⟨e0, he0', v0, hv0, hp0⟩
    | some v =>
      by_cases hve : v.isEmpty
      · have he0' : e0 ∈ es := by
          rcases List.mem_cons.mp he0 with rfl | h'
          · simp [entryVersion?, hev, hve] at hv0
          · exact h'
        simp only [selectLatest, hev, hve, if_true]
        exact ih acc ⟨e0, he0', v0, hv0, hp0⟩
      · cases hpv : parseVersion v with
        | none => simp [selectLatest, hev, hve, hpv]
        | some parts =>
          have he0' : e0 ∈ es := by
            rcases List.mem_cons.mp he0 with rfl | h'
            · have : v0 = v := by
                simp [entryVersion?, hev, hve] at hv0
                exact hv0.symm
              rw [this] at hp0
              rw [hp0] at hpv
              exact Option.noConfusion hpv
            · exact h'
          simp only [selectLatest, hev, hve, hpv]
          cases acc with
          | none => exact ih _ ⟨e0, he0', v0, hv0, hp0⟩
          | some be =>
            obtain ⟨b, be'⟩ := be
            by_cases hgt : pyListGT parts b = true
            · simp only [hgt, if_true]
              exact ih _ ⟨e0, he0', v0, hv0, hp0⟩
            · have hgt' : pyListGT parts b = false := by
                cases h : pyListGT parts b
                · rfl
                · exact absurd h hgt
              simp only [hgt', Bool.false_eq_true, if_false]
              exact ih _ ⟨e0, he0', v0, hv0, hp0⟩

/-- Invariant of the latest-version loop, with a candidate already in
hand: the loop ends in `found`, the final best only ever grows, its
source is the initial candidate or some entry, and it dominates both the
initial candidate and every entry's parsed version. -/
theorem selectLatest_found_inv :
    ∀ (entries : List VEntry) (b : List Int) (e0 : VEntry),
    (∀ e ∈ entries, ∀ v, entryVersion? e = some v → (parseVersion v).isSome) →
    ∃ b' e', selectLatest entries (some (b, e0)) = .found b' e' ∧
      (b' = b ∨ pyListGT b' b = true) ∧
      ((b' = b ∧ e' = e0) ∨
        ∃ v, e' ∈ entries ∧ entryVersion? e' = some v ∧ parseVersion v = some b') ∧
      pyListGT b b' = false ∧
      (∀ e1 ∈ entries, ∀ v p, entryVersion? e1 = some v → parseVersion v = some p →
        pyListGT p b' = false)
  | [], b, e0, _ =>
    ⟨b, e0, rfl, Or.inl rfl, Or.inl ⟨rfl, rfl⟩, pyListGT_irrefl b, by
      intro e1 h1
      cases h1⟩
  | e :: es, b, e0, hall => by
    have halles : ∀ x ∈ es, ∀ v, entryVersion? x = some v → (parseVersion v).isSome :=
      fun x hx => hall x (List.mem_cons_of_mem _ hx)
    cases hev : e.version with
    | none =>
      obtain ⟨b', e', hsel, hrel, hsrc, haccdom, hdom⟩ :=
        selectLatest_found_inv es b e0 halles
      refine ⟨b', e', ?_, hrel, ?_, haccdom, ?_⟩
      · simp only [selectLatest, hev]
        exact hsel
      · rcases hsrc with h | ⟨v, hv1, hv2, hv3⟩
        · exact Or.inl h
        · exact Or.inr ⟨v, List.mem_cons_of_mem _ hv1, hv2, hv3⟩
      · intro e1 h1 v p hv hp
        rcases List.mem_cons.mp h1 with rfl | h1'
        · simp [entryVersion?, hev] at hv
        · exact hdom e1 h1' v p hv hp
    | some v =>
      by_cases hve : v.isEmpty
      · obtain ⟨b', e', hsel, hrel, hsrc, haccdom, hdom⟩ :=
          selectLatest_found_inv es b e0 halles
        refine ⟨b', e', ?_, hrel, ?_, haccdom, ?_⟩
        · simp only [selectLatest, hev, hve, if_true]
          exact hsel
        · rcases hsrc with h | ⟨v', hv1, hv2, hv3⟩
          · exact Or.inl h
          · exact Or.inr ⟨v', List.mem_cons_of_mem _ hv1, hv2, hv3⟩
        · intro e1 h1 v1 p hv hp
          rcases List.mem_cons.mp h1 with rfl | h1'
          · simp [entryVersion?, hev, hve] at hv
          · exact hdom e1 h1' v1 p hv hp
      · have hev' : entryVersion? e = some v := by simp [entryVersion?, hev, hve]
        have hps := hall e (List.mem_cons_self _ _) v hev'
        obtain ⟨parts, hparts⟩ := Option.isSome_iff_exists.mp hps
        by_cases hgt : pyListGT parts b = true
        · obtain ⟨b', e', hsel, hrel, hsrc, haccdom, hdom⟩ :=
            selectLatest_found_inv es parts e halles
          refine ⟨b', e', ?_, ?_, ?_, ?_, ?_⟩
          · simp only [selectLatest, hev, hve, hparts, hgt, if_true]
            exact hsel
          · rcases hrel with rfl | h
            · exact Or.inr hgt
            · exact Or.inr (pyListGT_trans h hgt)
          · rcases hsrc with ⟨hb, he'⟩ | ⟨v', hv1, hv2, hv3⟩
            · subst hb
              subst he'
              exact Or.inr ⟨v, List.mem_cons_self _ _, hev', hparts⟩
            · exact Or.inr ⟨v', List.mem_cons_of_mem _ hv1, hv2, hv3⟩
          · rcases hrel with rfl | h
            · exact pyListGT_asymm hgt
            · exact pyListGT_asymm (pyListGT_trans h hgt)
          · intro e1 h1 v1 p hv hp
            rcases List.mem_cons.mp h1 with rfl | h1'
            · have hv1v : v1 = v := by
                rw [hev'] at hv
                exact (Option.some.inj hv).symm
              rw [hv1v, hparts] at hp
              have hpparts : p = parts := (Option.some.inj hp).symm
              subst hpparts
              exact haccdom
            · exact hdom e1 h1' v1 p hv hp
        · have hgt' : pyListGT parts b = false := by
            cases h : pyListGT parts b
            · rfl
            · exact absurd h hgt
          obtain ⟨b', e', hsel, hrel, hsrc, haccdom, hdom⟩ :=
            selectLatest_found_inv es b e0 halles
          refine ⟨b', e', ?_, hrel, ?_, haccdom, ?_⟩
          · simp only [selectLatest, hev, hve, hparts, hgt', Bool.false_eq_true, if_false]
            exact hsel
          · rcases hsrc with h | ⟨v', hv1, hv2, hv3⟩
            · exact Or.inl h
            · exact Or.inr ⟨v', List.mem_cons_of_mem _ hv1, hv2, hv3⟩
          · intro e1 h1 v1 p hv hp
            rcases List.mem_cons.mp h1 with rfl | h1'
            · have hv1v : v1 = v := by
                rw [hev'] at hv
                exact (Option.some.inj hv).symm
              rw [hv1v, hparts] at hp
              have hpparts : p = parts := (Option.some.inj hp).symm
              subst hpparts
              rcases hrel with rfl | h
              · exact hgt'
              · cases hq : pyListGT p b'
                · rfl
                · have hcontra := pyListGT_trans hq h
                  rw [hgt'] at hcontra
                  exact Bool.noConfusion hcontra
            · exact hdom e1 h1' v1 p hv hp

/-- Starting the loop with no candidate yet: if every contributing entry
parses and at least one entry contributes, the loop ends in `found` with
a maximal parsed version. -/
theorem selectLatest_none_found :
    ∀ entries : List VEntry,
    (∀ e ∈ entries, ∀ v, entryVersion? e = some v → (parseVersion v).isSome) →
    (∃ e ∈ entries, (entryVersion? e).isSome) →
    ∃ b' e', selectLatest entries none = .found b' e' ∧
      (∃ v, e' ∈ entries ∧ entryVersion? e' = some v ∧ parseVersion v = some b') ∧
      (∀ e1 ∈ entries, ∀ v p, entryVersion? e1 = some v → parseVersion v = some p →
        pyListGT p b' = false)
  | [], _, hsome => by
    obtain ⟨e, he, -⟩ := hsome
    cases he
  | e :: es, hall, hsome => by
    have halles : ∀ x ∈ es, ∀ v, entryVersion? x = some v → (parseVersion v).isSome :=
      fun x hx => hall x (List.mem_cons_of_mem _ hx)
    cases hev : e.version with
    | none =>
      have hsome' : ∃ x ∈ es, (entryVersion? x).isSome := by
        obtain ⟨e0, he0, hs⟩ := hsome
        rcases List.mem_cons.mp he0 with rfl | h'
        · simp [entryVersion?, hev] at hs
        · exact ⟨e0, h', hs⟩
      obtain ⟨b', e', hsel, hsrc, hdom⟩ := selectLatest_none_found es halles hsome'
      refine ⟨b', e', ?_, ?_, ?_⟩
      · simp only [selectLatest, hev]
        exact hsel
      · obtain ⟨v', hv1, hv2, hv3⟩ := hsrc
        exact ⟨v', List.mem_cons_of_mem _ hv1, hv2, hv3⟩
      · intro e1 h1 v1 p hv hp
        rcases List.mem_cons.mp h1 with rfl | h1'
        · simp [entryVersion?, hev] at hv
        · exact hdom e1 h1' v1 p hv hp
    | some v =>
      by_cases hve : v.isEmpty
      · have hsome' : ∃ x ∈ es, (entryVersion? x).isSome := by
          obtain ⟨e0, he0, hs⟩ := hsome
          rcases List.mem_cons.mp he0 with rfl | h'
          · simp [entryVersion?, hev, hve] at hs
          · exact ⟨e0, h', hs⟩
        obtain ⟨b', e', hsel, hsrc, hdom⟩ := selectLatest_none_found es halles hsome'
        refine ⟨b', e', ?_, ?_, ?_⟩
        · simp only [selectLatest, hev, hve, if_true]
          exact hsel
        · obtain ⟨v', hv1, hv2, hv3⟩ := hsrc
          exact ⟨v', List.mem_cons_of_mem _ hv1, hv2, hv3⟩
        · intro e1 h1 v1 p hv hp
          rcases List.mem_cons.mp h1 with rfl | h1'
          · simp [entryVersion?, hev, hve] at hv
          · exact hdom e1 h1' v1 p hv hp
      · have hev' : entryVersion? e = some v := by simp [entryVersion?, hev, hve]
        have hps := hall e (List.mem_cons_self _ _) v hev'
        obtain ⟨parts, hparts⟩ := Option.isSome_iff_exists.mp hps
        obtain ⟨b', e', hsel, hrel, hsrc, haccdom, hdom⟩ :=
          selectLatest_found_inv es parts e halles
        refine ⟨b', e', ?_, ?_, ?_⟩
        · simp only [selectLatest, hev, hve, hparts]
          exact hsel
        · rcases hsrc with ⟨hb, he'⟩ | ⟨v', hv1, hv2, hv3⟩
          · subst hb
            subst he'
            exact ⟨v, List.mem_cons_self _ _, hev', hparts⟩
          · exact ⟨v', List.mem_cons_of_mem _ hv1, hv2, hv3⟩
        · intro e1 h1 v1 p hv hp
          rcases List.mem_cons.mp h1 with rfl | h1'
          · have hv1v : v1 = v := by
              rw [hev'] at hv
              exact (Option.some.inj hv).symm
            rw [hv1v, hparts] at hp
            have hpparts : p = parts := (Option.some.inj hp).symm
            subst hpparts
            exact haccdom
          · exact hdom e1 h1' v1 p hv hp

/-- C3 counterexample: a manifest whose first entry parses (`1.2.0`) and
whose second does not (`1.x.0`).  The loop aborts with the `ValueError`
(leading to `sys.exit(1)`) instead of skipping the malformed entry and
returning the well-formed maximum. -/
theorem c3_selectLatest_counterexample :
    selectLatest [⟨some "1.2.0".data, []⟩, ⟨some "1.x.0".data, []⟩] none =
      SelectResult.parseError ∧
    SelectResult.parseError ≠
      SelectResult.found [1, 2, 0] ⟨some "1.2.0".data, []⟩ := by
  constructor <;> decide

/-- C3 amended: a malformed version string on any contributing entry
aborts the whole resolution with the terminal `parseError` (it is not
skipped); entries with a missing or empty version string are skipped;
and when every contributing entry parses, the loop returns the maximal
parsed version under Python list comparison. -/
theorem c3_selectLatest_amended (entries : List VEntry) :
    ((∃ e ∈ entries, ∃ v, entryVersion? e = some v ∧ parseVersion v = none) →
      selectLatest entries none = .parseError) ∧
    ((∀ e ∈ entries, ∀ v, entryVersion? e = some v → (parseVersion v).isSome) →
     (∃ e ∈ entries, (entryVersion? e).isSome) →
      ∃ b' e', selectLatest entries none = .found b' e' ∧
        (∃ v, e' ∈ entries ∧ entryVersion? e' = some v ∧ parseVersion v = some b') ∧
        ∀ e1 ∈ entries, ∀ v p, entryVersion? e1 = some v → parseVersion v = some p →
          pyListGT p b' = false) :=
  ⟨selectLatest_parseError entries none, selectLatest_none_found entries⟩

/-- Witness for the amended C3 statement: the malformed entry `1.x.0`
makes the whole resolution abort. -/
theorem c3_selectLatest_amended_witness :
    selectLatest [⟨some "1.2.0".data, []⟩, ⟨some "1.x.0".data, []⟩] none =
      SelectResult.parseError :=
  (c3_selectLatest_amended _).1
    ⟨⟨some "1.x.0".data, []⟩, by simp, "1.x.0".data, rfl, rfl⟩

/-! ### Desktop launcher reconciliation (`update_desktop_file`) -/

/-- The literal part of the pattern `r'Exec=.*'` used by
`update_desktop_file` (the characters of `Exec=`). -/
def execKey : List Char := ['E', 'x', 'e', 'c', '=']

/-- The replacement text `f"Exec={exec_path} %U --no-sandbox"`. -/
def newExecLine (execPath : List Char) : List Char :=
  execKey ++ execPath ++ " %U --no-sandbox".data

/-- `re.search(r'Exec=.*', content)` succeeds exactly when the literal
key occurs somewhere in the content (`.*` matches the possibly empty
rest of the line), scanning left to right. -/
def containsKey : List Char → Bool
  | [] => false
  | c :: rest => execKey.isPrefixOf (c :: rest) || containsKey rest

theorem length_dropWhile_le (p : Char → Bool) (l : List Char) :
    (l.dropWhile p).length ≤ l.length := by
  induction l with
  | nil => simp
  | cons c rest ih =>
    by_cases h : p c = true
    · rw [List.dropWhile_cons_of_pos h]
      exact Nat.le_succ_of_le ih
    · rw [List.dropWhile_cons_of_neg h]

/-- `re.sub(r'Exec=.*', newLine, content)` for this specific pattern:
scan left to right; wherever the literal key begins a match, the greedy
`.*` consumes the rest of the line (`.` does not match a newline), the
whole match is replaced by `n`, and scanning resumes at the newline (or
at the end of the input). -/
def subExecAll (n : List Char) : List Char → List Char
  | [] => []
  | c :: rest =>
    if execKey.isPrefixOf (c :: rest) then
      n ++ subExecAll n ((rest.drop 4).dropWhile (fun x => x != '\n'))
    else c :: subExecAll n rest
termination_by l => l.length
decreasing_by
  · have h1 := length_dropWhile_le (fun x => x != '\n') (rest.drop 4)
    have h2 : (rest.drop 4).length ≤ rest.length := by
      rw [List.length_drop]
      omega
    simp only [List.length_cons]
    omega
  · simp only [List.length_cons]
    omega

/-- The existing-file branch of `update_desktop_file` (lines 353–377):
when the pattern occurs the content is rewritten by `re.sub`; otherwise
`content += f"\n{new_exec_line}\n"`. -/
def update_desktop_content (execPath content : List Char) : List Char :=
  if containsKey content then subExecAll (newExecLine execPath) content
  else content ++ '\n' :: (newExecLine execPath ++ ['\n'])

/-- Template text before the `Exec=` line of the desktop file created
when none exists (lines 335–345). -/
def desktopTemplatePre : List Char :=
  "[Desktop Entry]\nVersion=1.0\nType=Application\nName=Cursor\nComment=The AI-first code editor\n".data

/-- Template text after the `Exec=` line. -/
def desktopTemplateSuf : List Char :=
  "\nIcon=cursor\nTerminal=false\nCategories=Development;TextEditor;\nStartupWMClass=cursor\n".data

/-- The full created desktop file with its `Exec=` line pointing at the
resolved path. -/
def desktopTemplate (execPath : List Char) : List Char :=
  desktopTemplatePre ++ newExecLine execPath ++ desktopTemplateSuf

/-- The `update_desktop_file` file transformation, as a function of the
resolved exec path and the current launcher-file state (`none` models
the file being absent, in which case the template is created). -/
def update_desktop_file (execPath : List Char) (existing : Option (List Char)) :
    List Char :=
  match existing with
  | none => desktopTemplate execPath
  | some content => update_desktop_content execPath content

theorem execKey_isPrefixOf_append (s : List Char) :
    execKey.isPrefixOf (execKey ++ s) = true :=
  List.isPrefixOf_iff_prefix.mpr (List.prefix_append _ _)

theorem isPrefixOf_append_of_le {k a : List Char} (X : List Char)
    (h : k.length ≤ a.length) : k.isPrefixOf (a ++ X) = k.isPrefixOf a := by
  have h1 : k.isPrefixOf (a ++ X) = true ↔ k.isPrefixOf a = true := by
    rw [List.isPrefixOf_iff_prefix, List.isPrefixOf_iff_prefix,
        List.prefix_iff_eq_take, List.prefix_iff_eq_take,
        List.take_append_of_le_length h]
  cases h2 : k.isPrefixOf a with
  | true => exact h1.mpr h2
  | false =>
    cases h3 : k.isPrefixOf (a ++ X) with
    | false => rfl
    | true =>
      have h4 := h1.mp h3
      rw [h2] at h4
      exact Bool.noConfusion h4

theorem isPrefixOf_congr_take {k l l' : List Char}
    (h : l.take k.length = l'.take k.length) :
    k.isPrefixOf l = k.isPrefixOf l' := by
  cases hp : k.isPrefixOf l' with
  | true =>
    have hpre := List.prefix_iff_eq_take.mp (List.isPrefixOf_iff_prefix.mp hp)
    exact List.isPrefixOf_iff_prefix.mpr
      (List.prefix_iff_eq_take.mpr (hpre.trans h.symm))
  | false =>
    cases hq : k.isPrefixOf l with
    | false => rfl
    | true =>
      have hpre := List.prefix_iff_eq_take.mp (List.isPrefixOf_iff_prefix.mp hq)
      have h5 := List.isPrefixOf_iff_prefix.mpr
        (List.prefix_iff_eq_take.mpr (hpre.trans h))
      rw [hp] at h5
      exact Bool.noConfusion h5

/-- Scanning guard: `clearOf pre X` asserts that scanning `pre ++ X`
finds no match of the key starting inside `pre`. -/
def clearOf : List Char → List Char → Bool
  | [], _ => true
  | c :: rest, X => !execKey.isPrefixOf ((c :: rest) ++ X) && clearOf rest X

theorem subExecAll_append_of_clearOf (n : List Char) :
    ∀ (pre X : List Char), clearOf pre X = true →
    subExecAll n (pre ++ X) = pre ++ subExecAll n X
  | [], X, _ => by simp
  | c :: rest, X, h => by
    rw [clearOf, Bool.and_eq_true, Bool.not_eq_true'] at h
    obtain ⟨h1, h2⟩ := h
    rw [List.cons_append] at h1
    have hrec := subExecAll_append_of_clearOf n rest X h2
    simp only [List.cons_append, subExecAll, h1, Bool.false_eq_true, if_false, hrec]

theorem subExecAll_key (n s : List Char) :
    subExecAll n (execKey ++ s) =
      n ++ subExecAll n (s.dropWhile (fun x => x != '\n')) := by
  have hpre : execKey.isPrefixOf ('E' :: 'x' :: 'e' :: 'c' :: '=' :: s) = true :=
    execKey_isPrefixOf_append s
  show subExecAll n ('E' :: 'x' :: 'e' :: 'c' :: '=' :: s) = _
  simp only [subExecAll, hpre, if_true, List.drop_succ_cons, List.drop_zero]

theorem subExecAll_nil (n : List Char) : subExecAll n [] = [] := by
  simp only [subExecAll]

theorem subExecAll_newline (n t : List Char) :
    subExecAll n ('\n' :: t) = '\n' :: subExecAll n t := by
  have hpre : execKey.isPrefixOf ('\n' :: t) = false := rfl
  simp only [subExecAll, hpre, Bool.false_eq_true, if_false]

/-- A segment the scan can never match into, whatever follows it: every
suffix of length at least five fails the key test outright, and every
shorter suffix starts with a character other than `E`. -/
def clearAny : List Char → Bool
  | [] => true
  | c :: rest =>
    (if 5 ≤ (c :: rest).length then !execKey.isPrefixOf (c :: rest)
     else c != 'E') && clearAny rest

theorem clearOf_of_clearAny : ∀ (pre X : List Char), clearAny pre = true →
    clearOf pre X = true
  | [], _, _ => rfl
  | c :: rest, X, h => by
    rw [clearAny, Bool.and_eq_true] at h
    obtain ⟨h1, h2⟩ := h
    rw [clearOf, Bool.and_eq_true]
    refine ⟨?_, clearOf_of_clearAny rest X h2⟩
    rw [Bool.not_eq_true']
    by_cases hlen : 5 ≤ (c :: rest).length
    · rw [if_pos hlen, Bool.not_eq_true'] at h1
      rw [isPrefixOf_append_of_le X (by simpa [execKey] using hlen)]
      exact h1
    · rw [if_neg hlen] at h1
      have hc : ('E' == c) = false := by
        rcases bne_iff_ne.mp h1 with h3
        exact beq_eq_false_iff_ne.mpr (Ne.symm h3)
      simp [List.cons_append, execKey, List.isPrefixOf, hc]

theorem clearOf_congr : ∀ (pre X X' : List Char), X.take 4 = X'.take 4 →
    clearOf pre X = clearOf pre X'
  | [], _, _, _ => rfl
  | c :: rest, X, X', h => by
    rw [clearOf, clearOf, clearOf_congr rest X X' h]
    congr 1
    congr 1
    apply isPrefixOf_congr_take
    show ((c :: rest) ++ X).take 5 = ((c :: rest) ++ X').take 5
    rw [List.take_append_eq_append_take, List.take_append_eq_append_take]
    congr 1
    have hle : 5 - (c :: rest).length ≤ 4 := by
      simp only [List.length_cons]
      omega
    calc X.take (5 - (c :: rest).length)
        = (X.take 4).take (5 - (c :: rest).length) := by
          rw [List.take_take, Nat.min_eq_left hle]
      _ = (X'.take 4).take (5 - (c :: rest).length) := by rw [h]
      _ = X'.take (5 - (c :: rest).length) := by
          rw [List.take_take, Nat.min_eq_left hle]

theorem bool_eq_false {b : Bool} (h : ¬b = true) : b = false := by
  cases b
  · rfl
  · exact absurd rfl h

theorem isPrefixOf_subExecAll (mid : List Char) :
    ∀ (l k : List Char), k.length ≤ 5 →
      k.isPrefixOf (subExecAll (execKey ++ mid) l) = k.isPrefixOf l
  | [], k, _ => by rw [subExecAll_nil]
  | c :: rest, k, hk => by
    by_cases hkey : execKey.isPrefixOf (c :: rest) = true
    · obtain ⟨s, hs⟩ := List.isPrefixOf_iff_prefix.mp hkey
      rw [← hs, subExecAll_key, List.append_assoc,
        isPrefixOf_append_of_le _ (by simp [execKey]; omega),
        isPrefixOf_append_of_le _ (by simp [execKey]; omega)]
    · have hkey' : execKey.isPrefixOf (c :: rest) = false := bool_eq_false hkey
      have hstep : subExecAll (execKey ++ mid) (c :: rest) =
          c :: subExecAll (execKey ++ mid) rest := by
        simp only [subExecAll, hkey', Bool.false_eq_true, if_false]
      rw [hstep]
      cases k with
      | nil => rfl
      | cons k0 k' =>
        show (k0 == c && k'.isPrefixOf (subExecAll (execKey ++ mid) rest)) =
          (k0 == c && k'.isPrefixOf rest)
        rw [isPrefixOf_subExecAll mid rest k'
          (by simp only [List.length_cons] at hk; omega)]

theorem dropWhile_newline_shape (s : List Char) :
    s.dropWhile (fun x => x != '\n') = [] ∨
      ∃ t, s.dropWhile (fun x => x != '\n') = '\n' :: t := by
  induction s with
  | nil => exact Or.inl rfl
  | cons c rest ih =>
    by_cases hc : c = '\n'
    · subst hc
      exact Or.inr ⟨rest, by rw [List.dropWhile_cons_of_neg (by simp)]⟩
    · rw [List.dropWhile_cons_of_pos (by simpa using hc)]
      exact ih

theorem dropWhile_append_not_newline : ∀ (a X : List Char), '\n' ∉ a →
    (a ++ X).dropWhile (fun x => x != '\n') = X.dropWhile (fun x => x != '\n')
  | [], _, _ => rfl
  | c :: rest, X, h => by
    have hc : c ≠ '\n' := fun hhc => h (by rw [← hhc]; exact List.mem_cons_self _ _)
    rw [List.cons_append, List.dropWhile_cons_of_pos (by simpa using hc)]
    exact dropWhile_append_not_newline rest X fun hx => h (List.mem_cons_of_mem _ hx)

/-- The rewrite is idempotent on raw content when the replacement text is
the key followed by newline-free material — exactly the shape of
`new_exec_line` for a newline-free resolved path. -/
theorem subExecAll_idem (mid : List Char) (hmid : '\n' ∉ mid) :
    ∀ l : List Char,
      subExecAll (execKey ++ mid) (subExecAll (execKey ++ mid) l) =
        subExecAll (execKey ++ mid) l
  | [] => by rw [subExecAll_nil, subExecAll_nil]
  | c :: rest => by
    by_cases hkey : execKey.isPrefixOf (c :: rest) = true
    · obtain ⟨s, hs⟩ := List.isPrefixOf_iff_prefix.mp hkey
      rw [← hs, subExecAll_key]
      conv_lhs => rw [List.append_assoc]
      rw [subExecAll_key, dropWhile_append_not_newline mid _ hmid]
      have hR : (subExecAll (execKey ++ mid)
            (s.dropWhile (fun x => x != '\n'))).dropWhile (fun x => x != '\n') =
          subExecAll (execKey ++ mid) (s.dropWhile (fun x => x != '\n')) := by
        rcases dropWhile_newline_shape s with h0 | ⟨t, ht⟩
        · rw [h0, subExecAll_nil]
          rfl
        · rw [ht, subExecAll_newline, List.dropWhile_cons_of_neg (by simp)]
      rw [hR, subExecAll_idem mid hmid (s.dropWhile (fun x => x != '\n'))]
    · have hkey' : execKey.isPrefixOf (c :: rest) = false := bool_eq_false hkey
      have hstep : subExecAll (execKey ++ mid) (c :: rest) =
          c :: subExecAll (execKey ++ mid) rest := by
        simp only [subExecAll, hkey', Bool.false_eq_true, if_false]
      rw [hstep]
      have hkey2 : execKey.isPrefixOf (c :: subExecAll (execKey ++ mid) rest) = false := by
        have h5 := isPrefixOf_subExecAll mid (c :: rest) execKey (by decide)
        rw [hstep] at h5
        rw [h5]
        exact hkey'
      have hstep2 : subExecAll (execKey ++ mid) (c :: subExecAll (execKey ++ mid) rest) =
          c :: subExecAll (execKey ++ mid) (subExecAll (execKey ++ mid) rest) := by
        simp only [subExecAll, hkey2, Bool.false_eq_true, if_false]
      rw [hstep2, subExecAll_idem mid hmid rest]
termination_by l => l.length
decreasing_by
  · have h1 := length_dropWhile_le (fun x => x != '\n') s
    have h2 : execKey.length + s.length = (c :: rest).length := by
      rw [← hs, List.length_append]
    simp only [execKey, List.length_cons, List.length_nil] at h2 ⊢
    omega
  · simp only [List.length_cons]
    omega

theorem containsKey_key_append (s : List Char) :
    containsKey (execKey ++ s) = true := by
  have h : execKey.isPrefixOf ('E' :: 'x' :: 'e' :: 'c' :: '=' :: s) = true :=
    execKey_isPrefixOf_append s
  show containsKey ('E' :: 'x' :: 'e' :: 'c' :: '=' :: s) = true
  simp only [containsKey, h, Bool.true_or]

theorem containsKey_append_right : ∀ (a X : List Char), containsKey X = true →
    containsKey (a ++ X) = true
  | [], _, h => h
  | c :: rest, X, h => by
    show (execKey.isPrefixOf ((c :: rest) ++ X) || containsKey (rest ++ X)) = true
    rw [containsKey_append_right rest X h, Bool.or_true]

theorem containsKey_subExecAll (mid : List Char) :
    ∀ l, containsKey l = true →
      containsKey (subExecAll (execKey ++ mid) l) = true
  | [], h => by
    rw [show containsKey [] = false from rfl] at h
    exact Bool.noConfusion h
  | c :: rest, h => by
    by_cases hkey : execKey.isPrefixOf (c :: rest) = true
    · obtain ⟨s, hs⟩ := List.isPrefixOf_iff_prefix.mp hkey
      rw [← hs, subExecAll_key, List.append_assoc]
      exact containsKey_key_append _
    · have hkey' : execKey.isPrefixOf (c :: rest) = false := bool_eq_false hkey
      have hrest : containsKey rest = true := by
        simp only [containsKey, hkey', Bool.false_or] at h
        exact h
      have hstep : subExecAll (execKey ++ mid) (c :: rest) =
          c :: subExecAll (execKey ++ mid) rest := by
        simp only [subExecAll, hkey', Bool.false_eq_true, if_false]
      rw [hstep]
      simp only [containsKey]
      rw [containsKey_subExecAll mid rest hrest, Bool.or_true]

theorem clearOf_newline_append_of_not_containsKey :
    ∀ content : List Char, containsKey content = false →
      clearOf (content ++ ['\n']) ['E', 'x', 'e', 'c'] = true
  | [], _ => by decide
  | c :: content', h => by
    rw [show containsKey (c :: content') =
        (execKey.isPrefixOf (c :: content') || containsKey content') from rfl,
      Bool.or_eq_false_iff] at h
    obtain ⟨h1, h2⟩ := h
    show clearOf ((c :: content') ++ ['\n']) ['E', 'x', 'e', 'c'] = true
    rw [List.cons_append, clearOf, Bool.and_eq_true]
    refine ⟨?_, clearOf_newline_append_of_not_containsKey content' h2⟩
    rw [Bool.not_eq_true']
    rcases content' with _ | ⟨a, _ | ⟨b, _ | ⟨c2, _ | ⟨d, rest'⟩⟩⟩⟩
    · simp [execKey, List.isPrefixOf, show ('x' == '\n') = false from rfl]
    · simp [execKey, List.isPrefixOf, show ('e' == '\n') = false from rfl]
    · simp [execKey, List.isPrefixOf, show ('c' == '\n') = false from rfl]
    · simp [execKey, List.isPrefixOf, show ('=' == '\n') = false from rfl]
    · simpa [execKey, List.isPrefixOf, List.cons_append] using h1

theorem newExecLine_eq (p : List Char) :
    newExecLine p = execKey ++ (p ++ " %U --no-sandbox".data) := by
  rw [newExecLine, List.append_assoc]

theorem not_newline_mem_mid (p : List Char) (hp : '\n' ∉ p) :
    '\n' ∉ p ++ " %U --no-sandbox".data := by
  intro hmem
  rcases List.mem_append.mp hmem with h | h
  · exact hp h
  · revert h
    decide

theorem containsKey_desktopTemplate (p : List Char) :
    containsKey (desktopTemplate p) = true := by
  rw [desktopTemplate, List.append_assoc]
  refine containsKey_append_right _ _ ?_
  rw [newExecLine_eq, List.append_assoc]
  exact containsKey_key_append _

theorem subExecAll_desktopTemplateSuf (n : List Char) :
    subExecAll n desktopTemplateSuf = desktopTemplateSuf := by
  have h0 := subExecAll_append_of_clearOf n desktopTemplateSuf []
    (clearOf_of_clearAny _ _ (by decide))
  rw [List.append_nil, subExecAll_nil, List.append_nil] at h0
  exact h0

theorem subExecAll_newExec_append_suf (n p : List Char) (hp : '\n' ∉ p) :
    subExecAll n (newExecLine p ++ desktopTemplateSuf) =
      n ++ desktopTemplateSuf := by
  rw [newExecLine_eq, List.append_assoc, subExecAll_key,
    dropWhile_append_not_newline _ _ (not_newline_mem_mid p hp),
    show desktopTemplateSuf.dropWhile (fun x => x != '\n') = desktopTemplateSuf from rfl,
    subExecAll_desktopTemplateSuf]

theorem subExecAll_desktopTemplate (p : List Char) (hp : '\n' ∉ p) :
    subExecAll (newExecLine p) (desktopTemplate p) = desktopTemplate p := by
  rw [desktopTemplate, List.append_assoc,
    subExecAll_append_of_clearOf _ _ _ (clearOf_of_clearAny _ _ (by decide)),
    subExecAll_newExec_append_suf _ _ hp]

/-- C7: reconciliation is idempotent.  For every launcher-file state
(including the file being absent) and every newline-free resolved exec
path, running `update_desktop_file` a second time on the output of the
first run reproduces that output byte for byte. -/
theorem c7_update_desktop_file_idem (p : List Char) (existing : Option (List Char))
    (hp : '\n' ∉ p) :
    update_desktop_file p (some (update_desktop_file p existing)) =
      update_desktop_file p existing := by
  have hmid := not_newline_mem_mid p hp
  cases existing with
  | none =>
    show update_desktop_content p (desktopTemplate p) = desktopTemplate p
    rw [update_desktop_content, if_pos (containsKey_desktopTemplate p)]
    exact subExecAll_desktopTemplate p hp
  | some content =>
    show update_desktop_content p (update_desktop_content p content) =
      update_desktop_content p content
    by_cases hck : containsKey content = true
    · have hinner : update_desktop_content p content =
          subExecAll (newExecLine p) content := by
        rw [update_desktop_content, if_pos hck]
      rw [hinner]
      have h2 : containsKey (subExecAll (newExecLine p) content) = true := by
        have h3 := containsKey_subExecAll (p ++ " %U --no-sandbox".data) content hck
        rw [← newExecLine_eq] at h3
        exact h3
      rw [update_desktop_content, if_pos h2]
      have h4 := subExecAll_idem (p ++ " %U --no-sandbox".data) hmid content
      rw [← newExecLine_eq] at h4
      exact h4
    · have hck' : containsKey content = false := bool_eq_false hck
      have hinner : update_desktop_content p content =
          content ++ '\n' :: (newExecLine p ++ ['\n']) := by
        rw [update_desktop_content, if_neg hck]
      rw [hinner, update_desktop_content]
      have hO : containsKey (content ++ '\n' :: (newExecLine p ++ ['\n'])) = true := by
        refine containsKey_append_right _ _ ?_
        show (execKey.isPrefixOf ('\n' :: (newExecLine p ++ ['\n'])) ||
          containsKey (newExecLine p ++ ['\n'])) = true
        rw [show execKey.isPrefixOf ('\n' :: (newExecLine p ++ ['\n'])) = false from rfl,
          Bool.false_or, newExecLine_eq, List.append_assoc]
        exact containsKey_key_append _
      rw [if_pos hO]
      have hsplit : content ++ '\n' :: (newExecLine p ++ ['\n']) =
          (content ++ ['\n']) ++ (newExecLine p ++ ['\n']) := by
        rw [List.append_assoc]
        rfl
      rw [hsplit]
      have hclear : clearOf (content ++ ['\n']) (newExecLine p ++ ['\n']) = true := by
        rw [clearOf_congr (content ++ ['\n']) (newExecLine p ++ ['\n'])
          ['E', 'x', 'e', 'c'] (by rw [newExecLine_eq]; rfl)]
        exact clearOf_newline_append_of_not_containsKey content hck'
      rw [subExecAll_append_of_clearOf _ _ _ hclear]
      congr 1
      rw [newExecLine_eq, List.append_assoc, subExecAll_key,
        dropWhile_append_not_newline _ _ hmid,
        show (['\n'] : List Char).dropWhile (fun x => x != '\n') = ['\n'] from rfl,
        subExecAll_newline, subExecAll_nil, List.append_assoc]

/-- Witness for C7: a concrete newline-free resolved path, starting from
an absent launcher file. -/
theorem c7_update_desktop_file_idem_witness :
    update_desktop_file "/usr/local/bin/cursor".data
        (some (update_desktop_file "/usr/local/bin/cursor".data none)) =
      update_desktop_file "/usr/local/bin/cursor".data none :=
  c7_update_desktop_file_idem "/usr/local/bin/cursor".data none (by decide)

/-- C6 counterexample: the pattern `Exec=.*` is an unanchored substring
match, so on a file containing a `TryExec=` line the rewrite also
mangles that line (and replaces every `Exec=` occurrence), instead of
replacing only the single `Exec=` line and preserving the `TryExec=`
line byte for byte as the claim states. -/
theorem c6_update_desktop_file_counterexample :
    update_desktop_content "/usr/local/bin/cursor".data "TryExec=/a\nExec=/b\n".data =
      "TryExec=/usr/local/bin/cursor %U --no-sandbox\nExec=/usr/local/bin/cursor %U --no-sandbox\n".data ∧
    ("TryExec=/usr/local/bin/cursor %U --no-sandbox\nExec=/usr/local/bin/cursor %U --no-sandbox\n".data : List Char) ≠
      "TryExec=/a\nExec=/usr/local/bin/cursor %U --no-sandbox\n".data := by
  constructor
  · rw [update_desktop_content, if_pos (by decide)]
    rw [show ("TryExec=/a\nExec=/b\n".data : List Char) =
        "Try".data ++ (execKey ++ "/a\nExec=/b\n".data) from rfl]
    rw [subExecAll_append_of_clearOf _ _ _ (clearOf_of_clearAny _ _ (by decide))]
    rw [subExecAll_key]
    rw [show ("/a\nExec=/b\n".data : List Char).dropWhile (fun x => x != '\n') =
        '\n' :: "Exec=/b\n".data from rfl]
    rw [subExecAll_newline]
    rw [show ("Exec=/b\n".data : List Char) = execKey ++ "/b\n".data from rfl]
    rw [subExecAll_key]
    rw [show ("/b\n".data : List Char).dropWhile (fun x => x != '\n') =
        '\n' :: ([] : List Char) from rfl]
    rw [subExecAll_newline, subExecAll_nil]
    decide
  · decide

/-- C6 amended: the rewrite replaces, on every line containing the key,
the segment from the (first) key occurrence to the end of that line with
the new exec line — an unanchored match, so lines such as `TryExec=` are
rewritten too — and appends a fresh line when the key occurs nowhere.
When the key occurs exactly once, starting a line whose remainder has no
newline, and neither the text before it nor the text after its line can
produce another match, everything outside the matched segment is
preserved byte for byte. -/
theorem c6_update_desktop_file_amended (p pre lineRest suf : List Char)
    (hpre : clearAny pre = true) (hsuf : clearAny suf = true)
    (hline : '\n' ∉ lineRest)
    (hsufhead : suf = [] ∨ ∃ t, suf = '\n' :: t) :
    update_desktop_content p (pre ++ execKey ++ lineRest ++ suf) =
      pre ++ newExecLine p ++ suf := by
  have hck : containsKey (pre ++ execKey ++ lineRest ++ suf) = true := by
    simp only [List.append_assoc]
    exact containsKey_append_right _ _ (containsKey_key_append _)
  rw [update_desktop_content, if_pos hck]
  simp only [List.append_assoc]
  rw [subExecAll_append_of_clearOf _ _ _ (clearOf_of_clearAny _ _ hpre)]
  congr 1
  rw [subExecAll_key, dropWhile_append_not_newline _ _ hline]
  rcases hsufhead with rfl | ⟨t, rfl⟩
  · rw [show ([] : List Char).dropWhile (fun x => x != '\n') = [] from rfl,
      subExecAll_nil, List.append_nil]
  · rw [List.dropWhile_cons_of_neg (by simp)]
    have hs : subExecAll (newExecLine p) ('\n' :: t) = '\n' :: t := by
      have h0 := subExecAll_append_of_clearOf (newExecLine p) ('\n' :: t) []
        (clearOf_of_clearAny _ _ hsuf)
      rw [List.append_nil, subExecAll_nil, List.append_nil] at h0
      exact h0
    rw [hs]

/-- Witness for the amended C6 statement at a concrete file whose only
key occurrence starts its `Exec=` line. -/
theorem c6_update_desktop_file_amended_witness :
    update_desktop_content "/usr/local/bin/cursor".data
        ("[Desktop Entry]\n".data ++ execKey ++ "/old %U".data ++ "\nIcon=cursor\n".data) =
      "[Desktop Entry]\n".data ++ newExecLine "/usr/local/bin/cursor".data ++
        "\nIcon=cursor\n".data :=
  c6_update_desktop_file_amended "/usr/local/bin/cursor".data
    "[Desktop Entry]\n".data "/old %U".data "\nIcon=cursor\n".data
    (by decide) (by decide) (by decide)
    (Or.inr ⟨"Icon=cursor\n".data, rfl⟩)

/-! ### The download/install pipeline (`download_cursor_appimage` and
`main`) -/

/-- Python `str(i)` for an int. -/
def intStr (i : Int) : List Char :=
  if i < 0 then '-' :: Nat.toDigits 10 i.natAbs else Nat.toDigits 10 i.toNat

/-- `'.'.join(map(str, latest_version))`. -/
def joinDots (parts : List Int) : List Char :=
  List.intercalate ['.'] (parts.map intStr)

/-- Association lookup modelling `platforms.get(key)`. -/
def lookupAssoc : List (List Char × List Char) → List Char → Option (List Char)
  | [], _ => none
  | (k, v) :: rest, key => if k = key then some v else lookupAssoc rest key

/-- `platforms.get('linux-x64')` followed by the falsy test
`if not linux_x64_url` (a missing key and an empty URL both fail). -/
def lookupPlatform (platforms : List (List Char × List Char)) : Option (List Char) :=
  match lookupAssoc platforms "linux-x64".data with
  | none => none
  | some u => if u.isEmpty then none else some u

/-- Simulated streamed download: the chunk sequence the response would
deliver, and the failure point (`none` = the stream completes; `some k`
= a `requests.RequestException` is raised after `k` chunks were already
written to the scratch file; `some 0` also covers `raise_for_status`
failing up front). -/
structure DownloadSim where
  chunks : List (List Nat)
  failAfter : Option Nat
deriving DecidableEq

/-- The streaming loop of lines 200–217: on success the scratch file
holds all chunks; on a mid-stream failure the `error` payload is the
content already written to the scratch file when the exception fired. -/
def runDownload (d : DownloadSim) : Except (List Nat) (List Nat) :=
  match d.failAfter with
  | none => .ok d.chunks.flatten
  | some k => .error (d.chunks.take k).flatten

/-- Abstract filesystem/process environment of one run of `main`. -/
structure Env where
  tsFound : Bool
  bunFound : Bool
  fetcherExit : Nat
  manifestPresent : Bool
  manifestJson : Option (List VEntry)
  versionFiles : List FileEntry
  download : DownloadSim
  chmodTmpOk : Bool
  moveOk : Bool
  chmodInstOk : Bool
  desktopOk : Bool
  verPrimaryOk : Bool
  verUserOk : Bool
deriving DecidableEq

/-- Result of `download_cursor_appimage`: a normal return of the
`(appimage_path, version_string, successful, failed)` tuple (the path is
`none` when nothing was downloaded), or `sys.exit(1)` — a `SystemExit`
that `main`'s `except Exception` does not catch.  `scratch` records the
temp-file content left on disk (`tempfile.NamedTemporaryFile` is created
with `delete=False` and the failure path never unlinks it); `downloaded`
records whether the streaming download was started. -/
inductive DlResult where
  | ret (appimage : Option (List Nat)) (version : List Char) (s f : Nat)
      (scratch : Option (List Nat)) (downloaded : Bool)
  | exit (s f : Nat) (scratch : Option (List Nat)) (downloaded : Bool)
deriving DecidableEq

/-- The sentinel version string returned on missing prerequisites. -/
def zeroVersion : List Char := "0.0.0".data

/-- `download_cursor_appimage` of `lib/main.py` (lines 43–230) over the
abstract environment: prerequisite checks (TypeScript helper, Bun),
external fetcher invocation, manifest presence and JSON parse, the
latest-version loop (`selectLatest`), the version comparison against
`get_current_version`, the platform-URL lookup and the streamed
download.  Counter increments follow the source. -/
def download_cursor_appimage (env : Env) (s f : Nat) : DlResult :=
  if env.tsFound = false then .ret none zeroVersion s (f + 1) none false
  else if env.bunFound = false then .ret none zeroVersion s (f + 1) none false
  else if env.fetcherExit ≠ 0 then .ret none zeroVersion s (f + 1) none false
  else
    let s := s + 1
    if env.manifestPresent = false then .exit s (f + 1) none false
    else
      match env.manifestJson with
      | none => .exit s (f + 1) none false
      | some entries =>
        let s := s + 1
        match selectLatest entries none with
        | .parseError => .exit s (f + 1) none false
        | .noValid => .exit s (f + 1) none false
        | .found best info =>
          let vstr := joinDots best
          let s := s + 1
          let cur := get_current_version env.versionFiles
          if compare_versions cur vstr = false then
            .ret none vstr (s + 1) f none false
          else
            let s := s + 1
            match lookupPlatform info.platforms with
            | none => .exit s (f + 1) none false
            | some _url =>
              let s := s + 1
              match runDownload env.download with
              | .error part => .exit s (f + 1) (some part) true
              | .ok bytes => .ret (some bytes) vstr (s + 1) f (some bytes) true

/-- The final summary line of `main`: the success-rate expression is the
conditional expression
`f"...{(s / (s + f) * 100):.1f}%" if (s + f) > 0 else "...N/A"`. -/
inductive Summary where
  | rate (q : ℚ) : Summary
  | na : Summary
deriving DecidableEq

/-- The guarded success-rate computation. -/
def summaryLine (s f : Nat) : Summary :=
  if s + f > 0 then .rate ((s : ℚ) / ((s : ℚ) + (f : ℚ)) * 100) else .na

/-- Observable outcome of one run of `main`: process exit code, final
counters, content placed at the install path (`none` = untouched),
version-record write (`none` = untouched), temp file left on disk,
whether a download was started, and the printed summary (`none` on the
paths that exit before reaching the summary, i.e. `sys.exit(1)` inside
`download_cursor_appimage`, and on the help path). -/
structure RunResult where
  exitCode : Nat
  s : Nat
  f : Nat
  installed : Option (List Nat)
  versionWritten : Option (List Char)
  scratchLeft : Option (List Nat)
  downloaded : Bool
  summary : Option Summary
deriving DecidableEq

/-- `main` of `lib/main.py` (lines 543–622): help flag, the call to
`download_cursor_appimage`, and — when an artifact was produced — the
chmod/install/desktop/version-record steps, whose operating-system
failures are injected through the `Env` booleans (each is caught at its
call site and only counted, per the source).  `check_installation_conflicts`
is called but touches neither counters nor state.  Exit code 0 is
reached whenever `main` returns normally, including the
missing-prerequisite branch that only prints a message. -/
def mainRun (env : Env) (args : List String) : RunResult :=
  if args.contains "--help" || args.contains "-h" then
    ⟨0, 0, 0, none, none, none, false, none⟩
  else
    match download_cursor_appimage env 0 0 with
    | .exit s f scratch dl => ⟨1, s, f, none, none, scratch, dl, none⟩
    | .ret none _v s f scratch dl =>
      ⟨0, s, f, none, none, scratch, dl, some (summaryLine s f)⟩
    | .ret (some bytes) v s f _scratch dl =>
      let sf1 := if env.chmodTmpOk then (s + 1, f) else (s, f + 1)
      let s := sf1.1
      let f := sf1.2
      let step3 :=
        if env.moveOk then
          let sf2 := if env.chmodInstOk then (s + 1, f) else (s, f + 1)
          (sf2.1 + 1, sf2.2, some bytes, (none : Option (List Nat)))
        else (s, f + 1, none, some bytes)
      let s := step3.1
      let f := step3.2.1
      let sf4 := if env.desktopOk then (s + 1, f) else (s, f + 1)
      let s := sf4.1
      let f := sf4.2
      let sf5 := if env.verPrimaryOk then (s + 1, f) else (s, f + 1)
      let s := sf5.1
      let f := sf5.2
      let sf6 := if env.verUserOk then (s + 1, f) else (s, f + 1)
      let s := sf6.1
      let f := sf6.2
      ⟨0, s, f, step3.2.2.1, if env.verPrimaryOk then some v else none,
        step3.2.2.2, dl, some (summaryLine s f)⟩

/-- Every run either prints no summary (help path, or `sys.exit(1)`
before the summary) or prints exactly the guarded summary line computed
from its final counters. -/
theorem mainRun_summary_shape (env : Env) (args : List String) :
    (mainRun env args).summary = none ∨
    (mainRun env args).summary =
      some (summaryLine (mainRun env args).s (mainRun env args).f) := by
  unfold mainRun
  split
  · exact Or.inl rfl
  · split
    · exact Or.inl rfl
    · exact Or.inr rfl
    · exact Or.inr rfl

theorem summaryLine_spec (s f : Nat) :
    (s + f = 0 → summaryLine s f = .na) ∧
    (0 < s + f → ∃ q, summaryLine s f = .rate q ∧
      q * ((s : ℚ) + (f : ℚ)) = (s : ℚ) * 100) := by
  constructor
  · intro h
    rw [summaryLine, if_neg (by omega)]
  · intro h
    rw [summaryLine, if_pos h]
    refine ⟨_, rfl, ?_⟩
    have hne : ((s : ℚ) + (f : ℚ)) ≠ 0 := by
      have h1 : (0 : ℚ) < (s : ℚ) + (f : ℚ) := by
        have := (Nat.cast_pos (α := ℚ)).mpr h
        push_cast at this
        exact this
      exact (ne_of_lt h1).symm
    field_simp

/-- C10: the summary's success rate never divides by zero: whenever a
summary is printed, it is `N/A` exactly when the tally of successful and
failed operations is zero, and otherwise it is a rate `q` computed with
a positive denominator, satisfying `q * (s + f) = s * 100`. -/
theorem c10_mainRun_summary (env : Env) (args : List String) (x : Summary)
    (hx : (mainRun env args).summary = some x) :
    (x = Summary.na ↔ (mainRun env args).s + (mainRun env args).f = 0) ∧
    (∀ q, x = Summary.rate q →
      0 < (mainRun env args).s + (mainRun env args).f ∧
      q * (((mainRun env args).s : ℚ) + ((mainRun env args).f : ℚ)) =
        ((mainRun env args).s : ℚ) * 100) := by
  rcases mainRun_summary_shape env args with h | h
  · rw [h] at hx
    exact Option.noConfusion hx
  · rw [h] at hx
    have hxe : x = summaryLine (mainRun env args).s (mainRun env args).f :=
      (Option.some.inj hx).symm
    subst hxe
    by_cases hz : (mainRun env args).s + (mainRun env args).f = 0
    · have hna := (summaryLine_spec _ _).1 hz
      constructor
      · rw [hna]
        exact iff_of_true rfl hz
      · intro q hq
        rw [hna] at hq
        exact Summary.noConfusion hq
    · have hpos : 0 < (mainRun env args).s + (mainRun env args).f :=
        Nat.pos_of_ne_zero hz
      obtain ⟨q0, hq0, hprod⟩ := (summaryLine_spec _ _).2 hpos
      constructor
      · rw [hq0]
        constructor
        · intro hh
          exact Summary.noConfusion hh
        · intro hh
          exact absurd hh hz
      · intro q hq
        rw [hq0] at hq
        have hqq : q0 = q := by
          cases hq
          rfl
        exact ⟨hpos, hqq ▸ hprod⟩

/-- Witness for C10: a run with one failed operation and none successful
prints a rate (denominator 1), not `N/A`. -/
theorem c10_mainRun_summary_witness : summaryLine 0 1 ≠ Summary.na := by
  intro h
  have h2 := (c10_mainRun_summary
    ⟨false, true, 0, true, none, [], ⟨[], none⟩, true, true, true, true, true, true⟩
    [] (summaryLine 0 1) rfl).1.mp h
  revert h2
  decide

/-- C2: the claim is right and the code is wrong.  When the external
fetcher prerequisite is missing (`update-cursor-links.ts` absent from
every candidate directory), `download_cursor_appimage` returns
`(None, "0.0.0", ...)` and `main` merely prints the missing-prerequisite
message and falls through to the summary, returning normally — the
process exits 0 even though the run failed (the failure counter is
positive).  The same happens when Bun is missing or the fetcher exits
non-zero. -/
theorem c2_missing_prerequisite_exits_zero :
    (mainRun ⟨false, true, 0, true, none, [], ⟨[], none⟩,
        true, true, true, true, true, true⟩ []).exitCode = 0 ∧
    0 < (mainRun ⟨false, true, 0, true, none, [], ⟨[], none⟩,
        true, true, true, true, true, true⟩ []).f := by
  constructor
  · rfl
  · decide

/-- C9: when the resolved latest manifest version is not newer than the
stored record, the pipeline halts after the comparison as a terminal
success: exit code 0, nothing placed at the install path, version record
untouched, no scratch file, and no download started. -/
theorem c9_up_to_date_halts (env : Env) (args : List String)
    (entries : List VEntry) (best : List Int) (info : VEntry)
    (hh1 : args.contains "--help" = false) (hh2 : args.contains "-h" = false)
    (hts : env.tsFound = true) (hbun : env.bunFound = true)
    (hfetch : env.fetcherExit = 0) (hman : env.manifestPresent = true)
    (hjson : env.manifestJson = some entries)
    (hsel : selectLatest entries none = .found best info)
    (hcmp : compare_versions (get_current_version env.versionFiles)
      (joinDots best) = false) :
    (mainRun env args).exitCode = 0 ∧
    (mainRun env args).installed = none ∧
    (mainRun env args).versionWritten = none ∧
    (mainRun env args).scratchLeft = none ∧
    (mainRun env args).downloaded = false := by
  have hdl : download_cursor_appimage env 0 0 =
      .ret none (joinDots best) 4 0 none false := by
    simp [download_cursor_appimage, hts, hbun, hfetch, hman, hjson, hsel, hcmp]
  have hm : mainRun env args = ⟨0, 4, 0, none, none, none, false,
      some (summaryLine 4 0)⟩ := by
    simp [mainRun, hdl]
    exact ⟨by simpa using hh1, by simpa using hh2⟩
  rw [hm]
  exact ⟨rfl, rfl, rfl, rfl, rfl⟩

/-- Witness for C9: manifest latest `1.4.0`, stored record `1.4.0`. -/
theorem c9_up_to_date_halts_witness :
    (mainRun ⟨true, true, 0, true, some [⟨some "1.4.0".data, []⟩],
        [⟨true, some "1.4.0".data⟩], ⟨[], none⟩,
        true, true, true, true, true, true⟩ []).exitCode = 0 ∧
    (mainRun ⟨true, true, 0, true, some [⟨some "1.4.0".data, []⟩],
        [⟨true, some "1.4.0".data⟩], ⟨[], none⟩,
        true, true, true, true, true, true⟩ []).installed = none ∧
    (mainRun ⟨true, true, 0, true, some [⟨some "1.4.0".data, []⟩],
        [⟨true, some "1.4.0".data⟩], ⟨[], none⟩,
        true, true, true, true, true, true⟩ []).versionWritten = none ∧
    (mainRun ⟨true, true, 0, true, some [⟨some "1.4.0".data, []⟩],
        [⟨true, some "1.4.0".data⟩], ⟨[], none⟩,
        true, true, true, true, true, true⟩ []).scratchLeft = none ∧
    (mainRun ⟨true, true, 0, true, some [⟨some "1.4.0".data, []⟩],
        [⟨true, some "1.4.0".data⟩], ⟨[], none⟩,
        true, true, true, true, true, true⟩ []).downloaded = false :=
  c9_up_to_date_halts _ [] [⟨some "1.4.0".data, []⟩] [1, 4, 0]
    ⟨some "1.4.0".data, []⟩ rfl rfl rfl rfl rfl rfl rfl (by decide) (by decide)

/-- C5 counterexample: a download that fails after one chunk terminates
the run with exit 1 and never touches the install path, but the partial
scratch file is not discarded — the temp file (created with
`delete=False` and never unlinked on the exception path) remains on disk
holding the partially written bytes. -/
theorem c5_download_failure_counterexample :
    (mainRun ⟨true, true, 0, true,
        some [⟨some "1.5.0".data, [("linux-x64".data, "http://u".data)]⟩],
        [⟨true, some "1.4.0".data⟩], ⟨[[104, 105], [106]], some 1⟩,
        true, true, true, true, true, true⟩ []).exitCode = 1 ∧
    (mainRun ⟨true, true, 0, true,
        some [⟨some "1.5.0".data, [("linux-x64".data, "http://u".data)]⟩],
        [⟨true, some "1.4.0".data⟩], ⟨[[104, 105], [106]], some 1⟩,
        true, true, true, true, true, true⟩ []).installed = none ∧
    (mainRun ⟨true, true, 0, true,
        some [⟨some "1.5.0".data, [("linux-x64".data, "http://u".data)]⟩],
        [⟨true, some "1.4.0".data⟩], ⟨[[104, 105], [106]], some 1⟩,
        true, true, true, true, true, true⟩ []).scratchLeft = some [104, 105] ∧
    (mainRun ⟨true, true, 0, true,
        some [⟨some "1.5.0".data, [("linux-x64".data, "http://u".data)]⟩],
        [⟨true, some "1.4.0".data⟩], ⟨[[104, 105], [106]], some 1⟩,
        true, true, true, true, true, true⟩ []).scratchLeft ≠ none := by
  refine ⟨rfl, rfl, rfl, ?_⟩
  decide

/-- C5 amended: a mid-stream download failure terminates the run with
exit code 1, nothing is ever placed at the install path and the version
record is untouched; but the partial scratch file is not discarded — it
remains on disk holding the bytes written before the failure. -/
theorem c5_download_failure_amended (env : Env) (args : List String)
    (entries : List VEntry) (best : List Int) (info : VEntry)
    (url : List Char) (k : Nat)
    (hh1 : args.contains "--help" = false) (hh2 : args.contains "-h" = false)
    (hts : env.tsFound = true) (hbun : env.bunFound = true)
    (hfetch : env.fetcherExit = 0) (hman : env.manifestPresent = true)
    (hjson : env.manifestJson = some entries)
    (hsel : selectLatest entries none = .found best info)
    (hcmp : compare_versions (get_current_version env.versionFiles)
      (joinDots best) = true)
    (hurl : lookupPlatform info.platforms = some url)
    (hfail : env.download.failAfter = some k) :
    (mainRun env args).exitCode = 1 ∧
    (mainRun env args).installed = none ∧
    (mainRun env args).versionWritten = none ∧
    (mainRun env args).scratchLeft = some (env.download.chunks.take k).flatten := by
  have hdl : download_cursor_appimage env 0 0 =
      .exit 5 1 (some (env.download.chunks.take k).flatten) true := by
    simp [download_cursor_appimage, hts, hbun, hfetch, hman, hjson, hsel, hcmp,
      hurl, runDownload, hfail]
  have hm : mainRun env args = ⟨1, 5, 1, none, none,
      some (env.download.chunks.take k).flatten, true, none⟩ := by
    simp [mainRun, hdl]
    exact ⟨by simpa using hh1, by simpa using hh2⟩
  rw [hm]
  exact ⟨rfl, rfl, rfl, rfl⟩

/-- Witness for the amended C5 statement: the same failing download as
the counterexample, derived through the general theorem. -/
theorem c5_download_failure_amended_witness :
    (mainRun ⟨true, true, 0, true,
        some [⟨some "1.5.0".data, [("linux-x64".data, "http://u".data)]⟩],
        [⟨true, some "1.4.0".data⟩], ⟨[[104, 105], [106]], some 1⟩,
        true, true, true, true, true, true⟩ []).exitCode = 1 ∧
    (mainRun ⟨true, true, 0, true,
        some [⟨some "1.5.0".data, [("linux-x64".data, "http://u".data)]⟩],
        [⟨true, some "1.4.0".data⟩], ⟨[[104, 105], [106]], some 1⟩,
        true, true, true, true, true, true⟩ []).installed = none ∧
    (mainRun ⟨true, true, 0, true,
        some [⟨some "1.5.0".data, [("linux-x64".data, "http://u".data)]⟩],
        [⟨true, some "1.4.0".data⟩], ⟨[[104, 105], [106]], some 1⟩,
        true, true, true, true, true, true⟩ []).versionWritten = none ∧
    (mainRun ⟨true, true, 0, true,
        some [⟨some "1.5.0".data, [("linux-x64".data, "http://u".data)]⟩],
        [⟨true, some "1.4.0".data⟩], ⟨[[104, 105], [106]], some 1⟩,
        true, true, true, true, true, true⟩ []).scratchLeft =
      some (([[104, 105], [106]] : List (List Nat)).take 1).flatten :=
  c5_download_failure_amended _ [] [⟨some "1.5.0".data,
      [("linux-x64".data, "http://u".data)]⟩] [1, 5, 0]
    ⟨some "1.5.0".data, [("linux-x64".data, "http://u".data)]⟩
    "http://u".data 1 rfl rfl rfl rfl rfl rfl rfl (by decide) (by decide)
    (by decide) rfl

end UpdateCursor
